import Mathlib

/-!
Shallow embedding of the perf ring-buffer consumer in `aya/src/maps/perf_map.rs`.

The data area of the ring is modelled as a `List Nat` of byte values; physical
offsets index into that list, and `data.length` plays the role of `self.size`
(the ring's data-area size in bytes).  Unbounded producer/consumer offsets
(`data_head` / `data_tail`) are plain naturals.  Fallible memory accesses
(out-of-bounds slice indexing, which panics in the source) are modelled by
`Option`: `none` means the source would have performed an out-of-bounds access.
The drain loop of `read_events` is embedded with an explicit fuel parameter;
`none` from the fuel-indexed loop means the fuel ran out before the loop
exited.
-/

set_option autoImplicit false
set_option maxRecDepth 40000

namespace PerfMap

/-! ### Little-endian byte encoding helpers -/

/-- Value of a little-endian byte list (`u16::from_ne_bytes` /
`u32::from_ne_bytes` / `u64::from_ne_bytes` on a little-endian target). -/
def leNat : List Nat → Nat
  | [] => 0
  | b :: bs => b + 256 * leNat bs

/-- The `k` little-endian bytes of `n`. -/
def leBytes : Nat → Nat → List Nat
  | 0, _ => []
  | k + 1, n => n % 256 :: leBytes k (n / 256)

/-! ### Data model: errors, events, buffers, loop state -/

/-- `PerfBufferError` from the source (payloads of the OS-error variants are
irrelevant to the claims and dropped). -/
inductive PerfBufferError : Type where
  | InvalidPageCount (page_count : Nat)
  | OpenError
  | MMapError
  | PerfEventEnableError
  | NoBuffers
  | MoreSpaceNeeded (size : Nat)
deriving DecidableEq

/-- `Events { read, lost }`. -/
structure Events : Type where
  read : Nat
  lost : Nat
deriving DecidableEq

/-- A `BytesMut` output buffer: a capacity and the current contents
(the contents' length is the buffer's current length). -/
structure BytesMut : Type where
  cap : Nat
  data : List Nat
deriving DecidableEq

/-- The mutable state of the drain loop in `read_events`: the loop-local
`tail`, the index `buf_n` of the next unused output buffer, the accumulated
`events`, and the caller's output buffers. -/
structure LoopState : Type where
  tail : Nat
  bufN : Nat
  events : Events
  bufs : List BytesMut
deriving DecidableEq

instance instDecEqExcept {ε α : Type} [DecidableEq ε] [DecidableEq α] :
    DecidableEq (Except ε α) := fun a b =>
  match a, b with
  | .ok x, .ok y =>
    if h : x = y then .isTrue (by rw [h]) else .isFalse (by intro hc; injection hc; exact h (by assumption))
  | .ok _, .error _ => .isFalse (by intro hc; exact Except.noConfusion hc)
  | .error _, .ok _ => .isFalse (by intro hc; exact Except.noConfusion hc)
  | .error x, .error y =>
    if h : x = y then .isTrue (by rw [h]) else .isFalse (by intro hc; injection hc; exact h (by assumption))

/-- Outcome of a `read_events` call: the returned value, the final value of the
`data_tail` metadata field, and the final output buffers. -/
structure RingOut : Type where
  res : Except PerfBufferError Events
  tailPub : Nat
  bufs : List BytesMut
deriving DecidableEq

/-- A run of the drain loop either returns (`out`) or hits a Rust panic
(out-of-bounds slice indexing inside `fill_buf`). -/
inductive LoopOut : Type where
  | out (r : RingOut)
  | panicked
deriving DecidableEq

/-- `PERF_RECORD_LOST` from the perf ABI. -/
def PERF_RECORD_LOST : Nat := 2

/-- `PERF_RECORD_SAMPLE` from the perf ABI. -/
def PERF_RECORD_SAMPLE : Nat := 9

/-- `mem::size_of::<perf_event_header>()`: `u32` + `u16` + `u16`. -/
def perf_event_header_size : Nat := 8

/-! ### `fill_buf` -/

/-- The wrap-safe copy closure in `read_events`.  `start_off` is the unbounded
ring offset, `len` the number of bytes to copy (`out_buf.len()` in the
source), `data` the ring's data area.  Returns the bytes placed in the output
region, or `none` when the source would panic (`out_buf[..size]` with
`size > out_buf.len()`) or read outside the mapped data area. -/
def fill_buf (start_off len : Nat) (data : List Nat) : Option (List Nat) :=
  let mmap_size := data.length
  let endPos := (start_off + len) % mmap_size
  let startPos := start_off % mmap_size
  if startPos < endPos then
    if startPos + len ≤ mmap_size then
      some ((List.range len).map fun i => data.getD (startPos + i) 0)
    else none
  else
    let size := mmap_size - startPos
    if size ≤ len ∧ len - size ≤ mmap_size then
      some (((List.range size).map fun i => data.getD (startPos + i) 0)
            ++ ((List.range (len - size)).map fun i => data.getD i 0))
    else none

/-- The idealised circular read: the `len` ring bytes at unbounded offsets
`start_off + i`, `i = 0 .. len - 1`. -/
def ringBytes (start_off len : Nat) (data : List Nat) : List Nat :=
  (List.range len).map fun i => data.getD ((start_off + i) % data.length) 0

/-! ### `read_event` -/

/-- The per-record closure in `read_events`.  `event_start` is the physical
offset of the record header (`tail % self.size`), `event_type` the header's
`type_` field.  Returns the match result together with the (possibly mutated)
output buffer, or `none` on a panic inside `fill_buf`.  `Ok(None)` (unknown
record type) is `.ok none`; `Ok(Some((read, lost)))` is `.ok (some (read,
lost))`. -/
def read_event (event_start event_type : Nat) (data : List Nat) (buf : BytesMut) :
    Option (Except PerfBufferError (Option (Nat × Nat)) × BytesMut) :=
  if event_type = PERF_RECORD_SAMPLE ∨ event_type = PERF_RECORD_LOST then
    match fill_buf (event_start + perf_event_header_size) 4 data with
    | none => none
    | some sizeBytes =>
      let sample_size := leNat sizeBytes
      if event_type = PERF_RECORD_SAMPLE then
        -- buf.clear() happens before the capacity check
        if buf.cap < sample_size then
          some (.error (.MoreSpaceNeeded sample_size), { cap := buf.cap, data := [] })
        else
          let sample_start := (event_start + perf_event_header_size + 4) % data.length
          match fill_buf sample_start sample_size data with
          | none => none
          | some payload => some (.ok (some (1, 0)), { cap := buf.cap, data := payload })
      else
        match fill_buf (event_start + perf_event_header_size + 8) 8 data with
        | none => none
        | some countBytes => some (.ok (some (0, leNat countBytes)), buf)
  else some (.ok none, buf)

/-! ### The drain loop of `read_events` -/

/-- The header `type_` field: the unaligned `perf_event_header` load at
`base + event_start`, projected to its first 32-bit field. -/
def headerTypeAt (data : List Nat) (event_start : Nat) : Nat :=
  leNat [data.getD event_start 0, data.getD (event_start + 1) 0,
         data.getD (event_start + 2) 0, data.getD (event_start + 3) 0]

/-- The header `size` field: bytes 6 and 7 of the same unaligned load. -/
def headerSizeAt (data : List Nat) (event_start : Nat) : Nat :=
  leNat [data.getD (event_start + 6) 0, data.getD (event_start + 7) 0]

/-- One iteration of the `while head != tail` loop, parameterised by the
continuation `rec` used when the loop continues. -/
def loopBody (data : List Nat) (head : Nat) (s : LoopState)
    (rec : LoopState → Option LoopOut) : Option LoopOut :=
  if head = s.tail then some (.out ⟨.ok s.events, s.tail, s.bufs⟩)
  else if s.bufN = s.bufs.length then some (.out ⟨.ok s.events, s.tail, s.bufs⟩)
  else
    let event_start := s.tail % data.length
    let etype := headerTypeAt data event_start
    let esize := headerSizeAt data event_start
    match read_event event_start etype data (s.bufs.getD s.bufN ⟨0, []⟩) with
    | none => some .panicked
    | some (res, buf1) =>
      let bufs1 := s.bufs.set s.bufN buf1
      match res with
      | .ok (some rl) =>
          rec { tail := s.tail + esize,
                bufN := if 0 < rl.1 then s.bufN + 1 else s.bufN,
                events := ⟨s.events.read + rl.1, s.events.lost + rl.2⟩,
                bufs := bufs1 }
      | .ok none => rec { s with tail := s.tail + esize, bufs := bufs1 }
      | .error e =>
        match e with
        | .MoreSpaceNeeded _ =>
          if 0 < s.events.read then some (.out ⟨.ok s.events, s.tail, bufs1⟩)
          else some (.out ⟨.error e, s.tail, bufs1⟩)
        | _ => some (.out ⟨.error e, s.tail, bufs1⟩)

/-- The fuel-indexed drain loop.  `none` means the fuel ran out. -/
def loopFuel : Nat → List Nat → Nat → LoopState → Option LoopOut
  | 0, _, _, _ => none
  | fuel + 1, data, head, s => loopBody data head s (loopFuel fuel data head)

/-- `read_events` with an explicit fuel bound on the loop. -/
def readEventsFuel (fuel : Nat) (data : List Nat) (head tail : Nat)
    (bufs : List BytesMut) : Option LoopOut :=
  if bufs.length = 0 then some (.out ⟨.error .NoBuffers, tail, bufs⟩)
  else loopFuel fuel data head ⟨tail, 0, ⟨0, 0⟩, bufs⟩

/-- `read_events`.  `data` is the ring's data area, `head` and `tail` the
entry values of `data_head` and `data_tail`, `bufs` the caller's output
buffers.  The fuel `head - tail + bufs.length + 1` is sufficient for every
run in which the source loop exits. -/
def read_events (data : List Nat) (head tail : Nat) (bufs : List BytesMut) :
    Option LoopOut :=
  readEventsFuel (head - tail + bufs.length + 1) data head tail bufs

/-- `read_events` terminates on the given entry state: the loop exits (with a
return or a panic) after some finite number of iterations. -/
def ReadEventsTerminates (data : List Nat) (head tail : Nat)
    (bufs : List BytesMut) : Prop :=
  ∃ fuel r, readEventsFuel fuel data head tail bufs = some r

/-! ### `PerfBuffer::open` and scoped release (`Drop`) -/

/-- The externally visible effects of `open` on OS resources. -/
inductive SysEvent : Type where
  | openedFd
  | mmapped (len : Nat)
  | enabled
  | disabled
  | munmapped (len : Nat)
  | closedFd
deriving DecidableEq

/-- Fuel-indexed halving loop behind `is_power_of_two` (the fuel only makes
the recursion structural; it is always sufficient at the call site). -/
def is_power_of_two_fuel : Nat → Nat → Bool
  | _, 0 => false
  | _, 1 => true
  | 0, _ => false
  | fuel + 1, n + 2 => decide ((n + 2) % 2 = 0) && is_power_of_two_fuel fuel ((n + 2) / 2)

/-- `usize::is_power_of_two` (exactly one bit set; `0` is not a power of
two). -/
def is_power_of_two (n : Nat) : Bool := is_power_of_two_fuel n n

/-- The scoped release performed by `Drop for PerfBuffer`: disable the event
(best effort), unmap `size + page_size` bytes, close the fd. -/
def perfBufferDrop (size page_size : Nat) : List SysEvent :=
  [.disabled, .munmapped (size + page_size), .closedFd]

/-- `PerfBuffer::open(cpu_id, page_size, page_count)`.  The syscall shims are
abstracted by the three booleans saying whether `perf_event_open`, `mmap` and
the enable `ioctl` fail.  Returns the result together with the chronological
log of resource events.  On the mmap-failure path the source returns without
closing the already-acquired fd (no `close` is emitted); on the enable-failure
path the partially constructed `PerfBuffer` is dropped, which runs the scoped
release. -/
def openPerfBuffer (cpu_id page_size page_count : Nat)
    (openFails mmapFails enableFails : Bool) :
    Except PerfBufferError Unit × List SysEvent :=
  let _ := cpu_id
  if ¬ is_power_of_two page_count then
    (.error (.InvalidPageCount page_count), [])
  else if openFails then (.error .OpenError, [])
  else
    let size := page_size * page_count
    if mmapFails then (.error .MMapError, [.openedFd])
    else if enableFails then
      (.error .PerfEventEnableError,
        [.openedFd, .mmapped (size + page_size)] ++ perfBufferDrop size page_size)
    else (.ok (), [.openedFd, .mmapped (size + page_size), .enabled])

/-! ### Record layout predicates and encodings -/

/-- `bytes` is written in the ring `data` at unbounded offset `pos`: byte `i`
of `bytes` is the ring byte at address `(pos + i) mod data_size`. -/
def laidOut (data : List Nat) (pos : Nat) (bytes : List Nat) : Prop :=
  ∀ i < bytes.length, data.getD ((pos + i) % data.length) 0 = bytes.getD i 0

instance instDecLaidOut (data : List Nat) (pos : Nat) (bytes : List Nat) :
    Decidable (laidOut data pos bytes) := by
  unfold laidOut; infer_instance

/-- The encoded bytes of a SAMPLE record with payload `P`:
header `(type = PERF_RECORD_SAMPLE, misc = 0, size = 12 + |P|)`, then the
32-bit payload length, then the payload. -/
def encSample (P : List Nat) : List Nat :=
  leBytes 4 PERF_RECORD_SAMPLE ++ leBytes 2 0 ++ leBytes 2 (12 + P.length)
    ++ leBytes 4 P.length ++ P

/-- The encoded bytes of a sequence of SAMPLE records, consecutive in the
ring. -/
def encSamples : List (List Nat) → List Nat
  | [] => []
  | P :: Ps => encSample P ++ encSamples Ps

/-- The encoded bytes of a LOST record: header `(type = PERF_RECORD_LOST,
misc = 0, size = 24)`, then the 64-bit `id`, then the 64-bit `count`. -/
def encLost (id count : Nat) : List Nat :=
  leBytes 4 PERF_RECORD_LOST ++ leBytes 2 0 ++ leBytes 2 24
    ++ leBytes 8 id ++ leBytes 8 count

/-- Total byte length of a list of record blobs. -/
def blobsLen : List (List Nat) → Nat
  | [] => 0
  | b :: bs => b.length + blobsLen bs

/-- Well-formed ring contents from `tail` on: the record blobs sit
consecutively in the ring starting at `tail`, each is at least a header long,
each record's header lies physically contiguous in the data area (the source
reads it with a single non-wrapping load), and the header's `size` field
equals the record's byte length. -/
def WF (data : List Nat) : Nat → List (List Nat) → Prop
  | _, [] => True
  | tail, b :: rest =>
    8 ≤ b.length ∧ laidOut data tail b ∧ tail % data.length + 8 ≤ data.length ∧
      b.getD 6 0 + 256 * b.getD 7 0 = b.length ∧ WF data (tail + b.length) rest

instance instDecWF (data : List Nat) : ∀ (tail : Nat) (blobs : List (List Nat)),
    Decidable (WF data tail blobs)
  | _, [] => .isTrue trivial
  | tail, b :: rest =>
    have : Decidable (WF data (tail + b.length) rest) := instDecWF data _ rest
    by unfold WF; infer_instance

/-- The output buffers after delivering payloads `Ps` into consecutive slots
starting at index `n`: slot `n + k` keeps its capacity and receives payload
`Ps[k]`. -/
def writeBufs (bufs : List BytesMut) (n : Nat) : List (List Nat) → List BytesMut
  | [] => bufs
  | P :: Ps => writeBufs (bufs.set n ⟨(bufs.getD n ⟨0, []⟩).cap, P⟩) (n + 1) Ps

/-! ### Helper lemmas -/

theorem length_leBytes (k n : Nat) : (leBytes k n).length = k := by
  induction k generalizing n with
  | zero => rfl
  | succ k ih => simp [leBytes, ih]
theorem leNat_leBytes (k n : Nat) (h : n < 256 ^ k) : leNat (leBytes k n) = n := by
  induction k generalizing n with
  | zero => simp [leBytes, leNat]; omega
  | succ k ih =>
    have hdiv : n / 256 < 256 ^ k := by
      rw [Nat.div_lt_iff_lt_mul (by norm_num)]
      calc n < 256 ^ (k + 1) := h
        _ = 256 ^ k * 256 := by ring
    simp only [leBytes, leNat, ih (n / 256) hdiv]
    omega
/-! ### List helpers -/

theorem map_range_getD (P : List Nat) :
    (List.range P.length).map (fun i => P.getD i 0) = P := by
  apply List.ext_getElem
  · simp
  · intro i h1 h2
    simp only [List.getElem_map, List.getElem_range]
    rw [List.getD_eq_getElem P 0 h2]
theorem set_getD_self {α : Type} (l : List α) (n : Nat) (d : α) (h : n < l.length) :
    l.set n (l.getD n d) = l := by
  apply List.ext_getElem
  · simp
  · intro i h1 h2
    rw [List.getElem_set]
    split
    · next heq => subst heq; rw [List.getD_eq_getElem l d h]
    · rfl
theorem loopFuel_succ (fuel : Nat) (data : List Nat) (head : Nat) (s : LoopState) :
    loopFuel (fuel + 1) data head s = loopBody data head s (loopFuel fuel data head) := rfl
theorem is_power_of_two_fuel_iff :
    ∀ (fuel n : Nat), n ≤ fuel + 1 →
      (is_power_of_two_fuel fuel n = true ↔ ∃ k, n = 2 ^ k) := by
  intro fuel
  induction fuel with
  | zero =>
    intro n hn
    match n, hn with
    | 0, _ =>
      simp only [is_power_of_two_fuel]
      constructor
      · intro h; exact absurd h (by simp)
      · rintro ⟨k, hk⟩
        have : 0 < 2 ^ k := Nat.pos_pow_of_pos k (by omega)
        omega
    | 1, _ =>
      simp only [is_power_of_two_fuel]
      exact ⟨fun _ => ⟨0, rfl⟩, fun _ => trivial⟩
  | succ fuel ih =>
    intro n hn
    match n with
    | 0 =>
      simp only [is_power_of_two_fuel]
      constructor
      · intro h; exact absurd h (by simp)
      · rintro ⟨k, hk⟩
        have : 0 < 2 ^ k := Nat.pos_pow_of_pos k (by omega)
        omega
    | 1 =>
      simp only [is_power_of_two_fuel]
      exact ⟨fun _ => ⟨0, rfl⟩, fun _ => trivial⟩
    | n + 2 =>
      rw [show is_power_of_two_fuel (fuel + 1) (n + 2)
          = (decide ((n + 2) % 2 = 0) && is_power_of_two_fuel fuel ((n + 2) / 2))
          from rfl,
        Bool.and_eq_true, decide_eq_true_iff, ih ((n + 2) / 2) (by omega)]
      constructor
      · rintro ⟨heven, k, hk⟩
        refine ⟨k + 1, ?_⟩
        have : 2 * ((n + 2) / 2) = n + 2 := by omega
        rw [pow_succ, mul_comm, ← hk, this]
      · rintro ⟨k, hk⟩
        match k with
        | 0 => omega
        | k + 1 =>
          have h2 : n + 2 = 2 * 2 ^ k := by rw [hk, pow_succ, mul_comm]
          refine ⟨by omega, k, by omega⟩
theorem is_power_of_two_iff (n : Nat) : is_power_of_two n = true ↔ ∃ k, n = 2 ^ k :=
  is_power_of_two_fuel_iff n n (by omega)

/-! ### Correctness of the wrap-safe copy -/

/-- For every transfer length `1 ≤ len ≤ data_size`, `fill_buf` succeeds (all
its accesses are in bounds) and fills the output with the ring bytes at
unbounded offsets `start_off + i`, `i = 0 .. len - 1`. -/
theorem fill_buf_eq (start_off len : Nat) (data : List Nat)
    (h1 : 1 ≤ len) (h2 : len ≤ data.length) :
    fill_buf start_off len data = some (ringBytes start_off len data) := by
  have hds : 0 < data.length := lt_of_lt_of_le h1 h2
  have hstartlt : start_off % data.length < data.length := Nat.mod_lt _ hds
  have hmod : (start_off + len) % data.length
      = (start_off % data.length + len) % data.length := (Nat.mod_add_mod _ _ _).symm
  by_cases hlt : start_off % data.length < (start_off + len) % data.length
  · have hin : start_off % data.length + len ≤ data.length := by
      by_contra hc
      have hsub : (start_off % data.length + len) % data.length
          = start_off % data.length + len - data.length := by
        rw [Nat.mod_eq_sub_mod (by omega)]
        exact Nat.mod_eq_of_lt (by omega)
      omega
    simp only [fill_buf, ringBytes, if_pos hlt, if_pos hin]
    congr 1
    apply List.map_congr_left
    intro i hi
    rw [List.mem_range] at hi
    have : (start_off + i) % data.length = start_off % data.length + i := by
      rw [← Nat.mod_add_mod]
      exact Nat.mod_eq_of_lt (by omega)
    rw [this]
  · have hwrap : data.length ≤ start_off % data.length + len := by
      by_contra hc
      have : (start_off % data.length + len) % data.length
          = start_off % data.length + len := Nat.mod_eq_of_lt (by omega)
      omega
    have hcond : data.length - start_off % data.length ≤ len ∧
        len - (data.length - start_off % data.length) ≤ data.length := by omega
    simp only [fill_buf, ringBytes, if_neg hlt, if_pos hcond]
    congr 1
    apply List.ext_getElem
    · simp; omega
    · intro i hL hR
      simp only [List.length_append, List.length_map, List.length_range] at hL
      simp only [List.length_map, List.length_range] at hR
      by_cases hi : i < data.length - start_off % data.length
      · rw [List.getElem_append_left (by simpa using hi)]
        simp only [List.getElem_map, List.getElem_range]
        congr 1
        have : (start_off + i) % data.length = start_off % data.length + i := by
          rw [← Nat.mod_add_mod]
          exact Nat.mod_eq_of_lt (by omega)
        omega
      · rw [List.getElem_append_right (by simpa using hi)]
        simp only [List.getElem_map, List.getElem_range, List.length_map, List.length_range]
        have e1 : (start_off % data.length + i) % data.length
            = (start_off + i) % data.length := Nat.mod_add_mod _ _ _
        have e2 : (start_off % data.length + i) % data.length
            = start_off % data.length + i - data.length := by
          rw [Nat.mod_eq_sub_mod (by omega)]
          exact Nat.mod_eq_of_lt (by omega)
        congr 1
        omega

/-- `fill_buf` depends on `start_off` only through its residue modulo the
data-area size. -/
theorem fill_buf_congr_mod (a b len : Nat) (data : List Nat)
    (h : a % data.length = b % data.length) :
    fill_buf a len data = fill_buf b len data := by
  have h2 : (a + len) % data.length = (b + len) % data.length := by
    rw [Nat.add_mod, h, ← Nat.add_mod]
  simp only [fill_buf, h, h2]

/-! ### Layout lemmas -/

theorem laidOut_append_left (data : List Nat) (pos : Nat) (xs ys : List Nat)
    (h : laidOut data pos (xs ++ ys)) : laidOut data pos xs := by
  intro i hi
  have := h i (by simp; omega)
  rwa [List.getD_append _ _ _ _ hi] at this

theorem laidOut_append_right (data : List Nat) (pos : Nat) (xs ys : List Nat)
    (h : laidOut data pos (xs ++ ys)) : laidOut data (pos + xs.length) ys := by
  intro i hi
  have hx := h (xs.length + i) (by simp; omega)
  rw [List.getD_append_right _ _ _ _ (by omega)] at hx
  simp only [Nat.add_sub_cancel_left] at hx
  rwa [← Nat.add_assoc] at hx

/-- A byte within the first 8 bytes of a record whose header is physically
contiguous can be read without the wrap-around modulus. -/
theorem laidOut_hdr_byte (data : List Nat) (tail : Nat) (bytes : List Nat)
    (h : laidOut data tail bytes) (hc : tail % data.length + 8 ≤ data.length)
    (j : Nat) (hj : j < 8) (hjb : j < bytes.length) :
    data.getD (tail % data.length + j) 0 = bytes.getD j 0 := by
  have heq : (tail + j) % data.length = tail % data.length + j := by
    rw [← Nat.mod_add_mod]
    exact Nat.mod_eq_of_lt (by omega)
  rw [← heq]
  exact h j hjb

/-- Reading a laid-out byte region through `fill_buf` recovers its bytes. -/
theorem fill_buf_laidOut (data : List Nat) (pos : Nat) (bytes : List Nat)
    (h : laidOut data pos bytes) (off len : Nat)
    (hlen : 1 ≤ len) (hle : len ≤ data.length) (hfit : off + len ≤ bytes.length) :
    fill_buf (pos + off) len data
      = some ((List.range len).map fun i => bytes.getD (off + i) 0) := by
  rw [fill_buf_eq _ _ _ hlen hle]
  congr 1
  unfold ringBytes
  apply List.map_congr_left
  intro i hi
  rw [List.mem_range] at hi
  have : pos + off + i = pos + (off + i) := by omega
  rw [this, h (off + i) (by omega)]

/-- Reading a whole laid-out region of known length recovers it exactly. -/
theorem fill_buf_laidOut_all (data : List Nat) (pos : Nat) (bytes : List Nat)
    (h : laidOut data pos bytes)
    (hlen : 1 ≤ bytes.length) (hle : bytes.length ≤ data.length) :
    fill_buf pos bytes.length data = some bytes := by
  have := fill_buf_laidOut data pos bytes h 0 bytes.length hlen hle (by omega)
  rw [Nat.add_zero] at this
  rw [this]
  congr 1
  have : (fun i => bytes.getD (0 + i) 0) = fun i => bytes.getD i 0 := by
    funext i; rw [Nat.zero_add]
  rw [this, map_range_getD]

theorem mod_add_small (tail j ds : Nat) (h : tail % ds + j < ds) :
    (tail + j) % ds = tail % ds + j := by
  rw [← Nat.mod_add_mod]
  exact Nat.mod_eq_of_lt h

theorem list_eq_four (l : List Nat) (h : l.length = 4) :
    l = [l.getD 0 0, l.getD 1 0, l.getD 2 0, l.getD 3 0] := by
  match l with
  | [_, _, _, _] => rfl
  | [] | [_] | [_, _] | [_, _, _] => simp at h
  | _ :: _ :: _ :: _ :: _ :: _ => simp only [List.length_cons] at h; omega

theorem list_eq_two (l : List Nat) (h : l.length = 2) :
    l = [l.getD 0 0, l.getD 1 0] := by
  match l with
  | [_, _] => rfl
  | [] | [_] => simp at h
  | _ :: _ :: _ :: _ => simp only [List.length_cons] at h; omega

/-- The `type_` field read by the header load, when a 32-bit value `t` is laid
out at the record start and the header is physically contiguous. -/
theorem etype_of_laidOut (data : List Nat) (tail t : Nat)
    (l1 : laidOut data tail (leBytes 4 t))
    (hc : tail % data.length + 8 ≤ data.length) (ht : t < 256 ^ 4) :
    leNat [data.getD (tail % data.length) 0, data.getD (tail % data.length + 1) 0,
           data.getD (tail % data.length + 2) 0, data.getD (tail % data.length + 3) 0]
      = t := by
  have h4 : (leBytes 4 t).length = 4 := length_leBytes 4 t
  have hb : ∀ j, j < 4 → data.getD (tail % data.length + j) 0 = (leBytes 4 t).getD j 0 := by
    intro j hj
    rw [← mod_add_small tail j data.length (by omega)]
    exact l1 j (by omega)
  have h0 := hb 0 (by omega)
  rw [Nat.add_zero] at h0
  rw [h0, hb 1 (by omega), hb 2 (by omega), hb 3 (by omega)]
  rw [← list_eq_four _ h4]
  exact leNat_leBytes 4 t ht

/-- The `size` field read by the header load, when a 16-bit value `n` is laid
out at offset 6 from the record start and the header is physically
contiguous. -/
theorem esize_of_laidOut (data : List Nat) (tail n : Nat)
    (l3 : laidOut data (tail + 6) (leBytes 2 n))
    (hc : tail % data.length + 8 ≤ data.length) (hn : n < 256 ^ 2) :
    leNat [data.getD (tail % data.length + 6) 0, data.getD (tail % data.length + 7) 0]
      = n := by
  have h2 : (leBytes 2 n).length = 2 := length_leBytes 2 n
  have hds : 0 < data.length := by omega
  have hb : ∀ j, j < 2 → data.getD (tail % data.length + (6 + j)) 0
      = (leBytes 2 n).getD j 0 := by
    intro j hj
    rw [← mod_add_small tail (6 + j) data.length (by omega)]
    have : tail + (6 + j) = tail + 6 + j := by omega
    rw [this]
    exact l3 j (by omega)
  have h6 := hb 0 (by omega)
  have h7 := hb 1 (by omega)
  rw [Nat.add_zero] at h6
  have e7 : tail % data.length + 7 = tail % data.length + (6 + 1) := by omega
  rw [e7, h6, h7, ← list_eq_two _ h2]
  exact leNat_leBytes 2 n hn

/-! ### `read_event` on laid-out records -/

theorem read_event_sample_fit (data : List Nat) (tail : Nat) (P : List Nat) (buf : BytesMut)
    (l4 : laidOut data (tail + 8) (leBytes 4 P.length))
    (l5 : laidOut data (tail + 12) P)
    (hP1 : 1 ≤ P.length) (hPds : P.length ≤ data.length) (hds : 4 ≤ data.length)
    (hP32 : P.length < 256 ^ 4) (hcap : P.length ≤ buf.cap) :
    read_event (tail % data.length) PERF_RECORD_SAMPLE data buf
      = some (.ok (some (1, 0)), ⟨buf.cap, P⟩) := by
  unfold read_event
  rw [if_pos (Or.inl rfl)]
  simp only [perf_event_header_size]
  have hf1 : fill_buf (tail % data.length + 8) 4 data = some (leBytes 4 P.length) := by
    rw [fill_buf_congr_mod _ (tail + 8) _ _ (Nat.mod_add_mod _ _ _)]
    have := fill_buf_laidOut_all data (tail + 8) (leBytes 4 P.length) l4
      (by rw [length_leBytes]; omega) (by rw [length_leBytes]; omega)
    rwa [length_leBytes] at this
  have e12 : tail % data.length + 8 + 4 = tail % data.length + 12 := by omega
  have hf2 : fill_buf ((tail + 12) % data.length) P.length data = some P := by
    rw [fill_buf_congr_mod _ (tail + 12) _ _ (Nat.mod_mod_of_dvd _ dvd_rfl)]
    exact fill_buf_laidOut_all data (tail + 12) P l5 hP1 hPds
  have hnc : ¬ buf.cap < P.length := by omega
  simp [hf1, leNat_leBytes 4 P.length hP32, hnc, e12, hf2]

theorem read_event_sample_oversize (data : List Nat) (tail : Nat) (P : List Nat)
    (buf : BytesMut)
    (l4 : laidOut data (tail + 8) (leBytes 4 P.length))
    (hds : 4 ≤ data.length) (hP32 : P.length < 256 ^ 4) (hcap : buf.cap < P.length) :
    read_event (tail % data.length) PERF_RECORD_SAMPLE data buf
      = some (.error (.MoreSpaceNeeded P.length), ⟨buf.cap, []⟩) := by
  unfold read_event
  rw [if_pos (Or.inl rfl)]
  simp only [perf_event_header_size]
  have hf1 : fill_buf (tail % data.length + 8) 4 data = some (leBytes 4 P.length) := by
    rw [fill_buf_congr_mod _ (tail + 8) _ _ (Nat.mod_add_mod _ _ _)]
    have := fill_buf_laidOut_all data (tail + 8) (leBytes 4 P.length) l4
      (by rw [length_leBytes]; omega) (by rw [length_leBytes]; omega)
    rwa [length_leBytes] at this
  simp [hf1, leNat_leBytes 4 P.length hP32, hcap]

theorem read_event_lost (data : List Nat) (tail : Nat) (count : Nat) (buf : BytesMut)
    (lc : laidOut data (tail + 16) (leBytes 8 count))
    (hds : 8 ≤ data.length) (hcount : count < 256 ^ 8) :
    read_event (tail % data.length) PERF_RECORD_LOST data buf
      = some (.ok (some (0, count)), buf) := by
  unfold read_event
  rw [if_pos (Or.inr rfl)]
  simp only [perf_event_header_size]
  have hf1 : fill_buf (tail % data.length + 8) 4 data
      = some (ringBytes (tail % data.length + 8) 4 data) :=
    fill_buf_eq _ _ _ (by omega) (by omega)
  have e16 : tail % data.length + 8 + 8 = tail % data.length + 16 := by omega
  have hf2 : fill_buf (tail % data.length + 16) 8 data = some (leBytes 8 count) := by
    rw [fill_buf_congr_mod _ (tail + 16) _ _ (Nat.mod_add_mod _ _ _)]
    have := fill_buf_laidOut_all data (tail + 16) (leBytes 8 count) lc
      (by rw [length_leBytes]; omega) (by rw [length_leBytes]; omega)
    rwa [length_leBytes] at this
  have hne : ¬ (PERF_RECORD_LOST = PERF_RECORD_SAMPLE) := by decide
  simp [hf1, hne, e16, hf2, leNat_leBytes 8 count hcount]

/-! ### Decomposing encoded records -/

theorem encSample_parts (data : List Nat) (tail : Nat) (P : List Nat)
    (h : laidOut data tail (encSample P)) :
    laidOut data tail (leBytes 4 PERF_RECORD_SAMPLE) ∧
    laidOut data (tail + 6) (leBytes 2 (12 + P.length)) ∧
    laidOut data (tail + 8) (leBytes 4 P.length) ∧
    laidOut data (tail + 12) P := by
  unfold encSample at h
  have hP := laidOut_append_right _ _ _ _ h
  have h1 := laidOut_append_left _ _ _ _ h
  have l4 := laidOut_append_right _ _ _ _ h1
  have h2 := laidOut_append_left _ _ _ _ h1
  have l3 := laidOut_append_right _ _ _ _ h2
  have h3 := laidOut_append_left _ _ _ _ h2
  have l1 := laidOut_append_left _ _ _ _ h3
  simp only [List.length_append, length_leBytes] at hP l4 l3
  norm_num at hP l4 l3
  exact ⟨l1, l3, l4, hP⟩

theorem encLost_parts (data : List Nat) (tail : Nat) (id count : Nat)
    (h : laidOut data tail (encLost id count)) :
    laidOut data tail (leBytes 4 PERF_RECORD_LOST) ∧
    laidOut data (tail + 6) (leBytes 2 24) ∧
    laidOut data (tail + 16) (leBytes 8 count) := by
  unfold encLost at h
  have lc := laidOut_append_right _ _ _ _ h
  have h1 := laidOut_append_left _ _ _ _ h
  have h2 := laidOut_append_left _ _ _ _ h1
  have l3 := laidOut_append_right _ _ _ _ h2
  have h3 := laidOut_append_left _ _ _ _ h2
  have l1 := laidOut_append_left _ _ _ _ h3
  simp only [List.length_append, length_leBytes] at lc l3
  norm_num at lc l3
  exact ⟨l1, l3, lc⟩

/-! ### Single loop iterations -/

/-- Exiting the loop: `head = tail` (or no fuel is needed beyond one step). -/
theorem loop_exit (fuel : Nat) (data : List Nat) (head : Nat) (s : LoopState)
    (h : head = s.tail) (hf : 0 < fuel) :
    loopFuel fuel data head s = some (.out ⟨.ok s.events, s.tail, s.bufs⟩) := by
  match fuel, hf with
  | fuel + 1, _ =>
    rw [loopFuel_succ]
    simp only [loopBody, if_pos h]

/-- Exiting the loop because all output buffers are used. -/
theorem loop_exit_full (fuel : Nat) (data : List Nat) (head : Nat) (s : LoopState)
    (h : s.bufN = s.bufs.length) (hhead : head ≠ s.tail) (hf : 0 < fuel) :
    loopFuel fuel data head s = some (.out ⟨.ok s.events, s.tail, s.bufs⟩) := by
  match fuel, hf with
  | fuel + 1, _ =>
    rw [loopFuel_succ]
    simp only [loopBody, if_neg hhead, if_pos h]

/-- One iteration consuming a fitting SAMPLE record laid out at the loop
tail. -/
theorem loop_step_sample_fit (data : List Nat) (head fuel : Nat) (s : LoopState)
    (P : List Nat)
    (hlay : laidOut data s.tail (encSample P))
    (hc : s.tail % data.length + 8 ≤ data.length)
    (hP1 : 1 ≤ P.length) (hPds : P.length ≤ data.length)
    (hP16 : 12 + P.length < 256 ^ 2)
    (hbn : s.bufN < s.bufs.length)
    (hcap : P.length ≤ (s.bufs.getD s.bufN ⟨0, []⟩).cap)
    (hhead : head ≠ s.tail) :
    loopFuel (fuel + 1) data head s
      = loopFuel fuel data head
          { tail := s.tail + (12 + P.length), bufN := s.bufN + 1,
            events := ⟨s.events.read + 1, s.events.lost⟩,
            bufs := s.bufs.set s.bufN ⟨(s.bufs.getD s.bufN ⟨0, []⟩).cap, P⟩ } := by
  have h2562 : (256 : Nat) ^ 2 = 65536 := by norm_num
  have h2564 : (256 : Nat) ^ 4 = 4294967296 := by norm_num
  obtain ⟨l1, l3, l4, l5⟩ := encSample_parts data s.tail P hlay
  have hty := etype_of_laidOut data s.tail PERF_RECORD_SAMPLE l1 hc
    (by norm_num [PERF_RECORD_SAMPLE])
  have hsz := esize_of_laidOut data s.tail (12 + P.length) l3 hc hP16
  have hre := read_event_sample_fit data s.tail P (s.bufs.getD s.bufN ⟨0, []⟩)
    l4 l5 hP1 hPds (by omega) (by omega) hcap
  rw [loopFuel_succ]
  simp only [loopBody, headerTypeAt, headerSizeAt, if_neg hhead,
    if_neg (show ¬ s.bufN = s.bufs.length by omega)]
  rw [hty, hsz, hre]
  norm_num

/-- One iteration hitting an oversize SAMPLE record laid out at the loop
tail: the loop returns, successfully when samples were already delivered and
with `MoreSpaceNeeded` otherwise; in both cases the selected output buffer
has been cleared and the published tail is the record's start. -/
theorem loop_step_sample_oversize (data : List Nat) (head fuel : Nat) (s : LoopState)
    (P : List Nat)
    (hlay : laidOut data s.tail (encSample P))
    (hc : s.tail % data.length + 8 ≤ data.length)
    (hP16 : 12 + P.length < 256 ^ 2)
    (hbn : s.bufN < s.bufs.length)
    (hcap : (s.bufs.getD s.bufN ⟨0, []⟩).cap < P.length)
    (hhead : head ≠ s.tail) :
    loopFuel (fuel + 1) data head s
      = (if 0 < s.events.read then
          some (.out ⟨.ok s.events, s.tail,
            s.bufs.set s.bufN ⟨(s.bufs.getD s.bufN ⟨0, []⟩).cap, []⟩⟩)
        else
          some (.out ⟨.error (.MoreSpaceNeeded P.length), s.tail,
            s.bufs.set s.bufN ⟨(s.bufs.getD s.bufN ⟨0, []⟩).cap, []⟩⟩)) := by
  have h2562 : (256 : Nat) ^ 2 = 65536 := by norm_num
  have h2564 : (256 : Nat) ^ 4 = 4294967296 := by norm_num
  obtain ⟨l1, l3, l4, _⟩ := encSample_parts data s.tail P hlay
  have hty := etype_of_laidOut data s.tail PERF_RECORD_SAMPLE l1 hc
    (by norm_num [PERF_RECORD_SAMPLE])
  have hre := read_event_sample_oversize data s.tail P (s.bufs.getD s.bufN ⟨0, []⟩)
    l4 (by omega) (by omega) hcap
  rw [loopFuel_succ]
  simp only [loopBody, headerTypeAt, headerSizeAt, if_neg hhead,
    if_neg (show ¬ s.bufN = s.bufs.length by omega)]
  rw [hty, hre]

/-- One iteration consuming a LOST record laid out at the loop tail. -/
theorem loop_step_lost (data : List Nat) (head fuel : Nat) (s : LoopState)
    (id count : Nat)
    (hlay : laidOut data s.tail (encLost id count))
    (hc : s.tail % data.length + 8 ≤ data.length)
    (hcount : count < 256 ^ 8)
    (hbn : s.bufN < s.bufs.length)
    (hhead : head ≠ s.tail) :
    loopFuel (fuel + 1) data head s
      = loopFuel fuel data head
          { s with tail := s.tail + 24,
                   events := ⟨s.events.read, s.events.lost + count⟩ } := by
  obtain ⟨l1, l3, lc⟩ := encLost_parts data s.tail id count hlay
  have hty := etype_of_laidOut data s.tail PERF_RECORD_LOST l1 hc
    (by norm_num [PERF_RECORD_LOST])
  have hsz := esize_of_laidOut data s.tail 24 l3 hc (by norm_num)
  have hre := read_event_lost data s.tail count (s.bufs.getD s.bufN ⟨0, []⟩)
    lc (by omega) hcount
  rw [loopFuel_succ]
  simp only [loopBody, headerTypeAt, headerSizeAt, if_neg hhead,
    if_neg (show ¬ s.bufN = s.bufs.length by omega)]
  rw [hty, hsz, hre]
  norm_num
  congr 1
  congr 1
  rw [← List.getD_eq_getElem?_getD]
  exact set_getD_self s.bufs s.bufN ⟨0, []⟩ hbn

/-! ### `writeBufs` bookkeeping -/

theorem set_getD_ne {α : Type} (l : List α) (n i : Nat) (a d : α) (h : n ≠ i) :
    (l.set n a).getD i d = l.getD i d := by
  rw [List.getD_eq_getElem?_getD, List.getD_eq_getElem?_getD, List.getElem?_set_ne h]

theorem set_getD_eq {α : Type} (l : List α) (n : Nat) (a d : α) (h : n < l.length) :
    (l.set n a).getD n d = a := by
  rw [List.getD_eq_getElem?_getD, List.getElem?_set_eq_of_lt a h]
  rfl

theorem length_writeBufs (Ps : List (List Nat)) :
    ∀ (bufs : List BytesMut) (n : Nat), (writeBufs bufs n Ps).length = bufs.length := by
  induction Ps with
  | nil => intro bufs n; rfl
  | cons P Ps ih =>
    intro bufs n
    rw [writeBufs, ih]
    exact List.length_set bufs n _

theorem writeBufs_getD_low (Ps : List (List Nat)) :
    ∀ (bufs : List BytesMut) (n i : Nat) (d : BytesMut), i < n →
    (writeBufs bufs n Ps).getD i d = bufs.getD i d := by
  induction Ps with
  | nil => intro bufs n i d _; rfl
  | cons P Ps ih =>
    intro bufs n i d hi
    rw [writeBufs, ih _ (n + 1) i d (by omega), set_getD_ne _ _ _ _ _ (by omega)]

theorem writeBufs_getD_high (Ps : List (List Nat)) :
    ∀ (bufs : List BytesMut) (n i : Nat) (d : BytesMut), n + Ps.length ≤ i →
    (writeBufs bufs n Ps).getD i d = bufs.getD i d := by
  induction Ps with
  | nil => intro bufs n i d _; rfl
  | cons P Ps ih =>
    intro bufs n i d hi
    rw [List.length_cons] at hi
    rw [writeBufs, ih _ (n + 1) i d (by omega), set_getD_ne _ _ _ _ _ (by omega)]

theorem writeBufs_getD_mid (Ps : List (List Nat)) :
    ∀ (bufs : List BytesMut) (n k : Nat), k < Ps.length → n + Ps.length ≤ bufs.length →
    (writeBufs bufs n Ps).getD (n + k) ⟨0, []⟩
      = ⟨(bufs.getD (n + k) ⟨0, []⟩).cap, Ps.getD k []⟩ := by
  induction Ps with
  | nil => intro bufs n k hk _; simp at hk
  | cons P Ps ih =>
    intro bufs n k hk hlen
    rw [List.length_cons] at hk hlen
    match k with
    | 0 =>
      rw [Nat.add_zero, writeBufs, writeBufs_getD_low Ps _ (n + 1) n _ (by omega),
        set_getD_eq _ _ _ _ (by omega)]
      rfl
    | k + 1 =>
      have e : n + (k + 1) = (n + 1) + k := by omega
      rw [writeBufs, e, ih _ (n + 1) k (by omega) (by rw [List.length_set]; omega),
        set_getD_ne _ _ _ _ _ (by omega)]
      rfl

/-! ### Lengths of encoded records -/

theorem length_encSample (P : List Nat) : (encSample P).length = 12 + P.length := by
  simp [encSample, List.length_append, length_leBytes]
  omega

theorem length_encSamples_cons (P : List Nat) (Ps : List (List Nat)) :
    (encSamples (P :: Ps)).length = 12 + P.length + (encSamples Ps).length := by
  rw [show encSamples (P :: Ps) = encSample P ++ encSamples Ps from rfl,
    List.length_append, length_encSample]

theorem length_encLost (id count : Nat) : (encLost id count).length = 24 := by
  simp [encLost, List.length_append, length_leBytes]

/-! ### Draining a run of fitting SAMPLE records -/

theorem loop_advance_samples (data : List Nat) (head : Nat) (Ps : List (List Nat)) :
    ∀ (fuel : Nat) (s : LoopState),
    laidOut data s.tail (encSamples Ps) →
    s.tail % data.length + (encSamples Ps).length ≤ data.length →
    (∀ P ∈ Ps, 1 ≤ P.length ∧ 12 + P.length < 256 ^ 2) →
    s.bufN + Ps.length ≤ s.bufs.length →
    (∀ k, k < Ps.length → (Ps.getD k []).length ≤ (s.bufs.getD (s.bufN + k) ⟨0, []⟩).cap) →
    s.tail + (encSamples Ps).length ≤ head →
    loopFuel (fuel + Ps.length) data head s
      = loopFuel fuel data head
          { tail := s.tail + (encSamples Ps).length,
            bufN := s.bufN + Ps.length,
            events := ⟨s.events.read + Ps.length, s.events.lost⟩,
            bufs := writeBufs s.bufs s.bufN Ps } := by
  induction Ps with
  | nil =>
    intro fuel s _ _ _ _ _ _
    simp [encSamples, writeBufs]
  | cons P Ps ih =>
    intro fuel s hlay hnw hp hbl hcap hH
    have hlay' : laidOut data s.tail (encSample P ++ encSamples Ps) := hlay
    have hPp := hp P (List.mem_cons_self P Ps)
    have hlen_cons := length_encSamples_cons P Ps
    have hnw' := hnw
    rw [hlen_cons] at hnw'
    have hH' := hH
    rw [hlen_cons] at hH'
    have hbl' := hbl
    rw [List.length_cons] at hbl'
    have hlay1 : laidOut data s.tail (encSample P) :=
      laidOut_append_left data s.tail (encSample P) (encSamples Ps) hlay'
    have hrest : laidOut data (s.tail + (12 + P.length)) (encSamples Ps) := by
      have := laidOut_append_right data s.tail (encSample P) (encSamples Ps) hlay'
      rwa [length_encSample] at this
    have hc0 := hcap 0 (by simp)
    rw [Nat.add_zero] at hc0
    simp only [List.getD_cons_zero] at hc0
    rw [show fuel + (P :: Ps).length = (fuel + Ps.length) + 1 from rfl]
    rw [loop_step_sample_fit data head (fuel + Ps.length) s P hlay1 (by omega)
      hPp.1 (by omega) hPp.2 (by omega) hc0 (by omega)]
    have hds0 : 0 < data.length := by omega
    rw [ih fuel _ hrest ?_ (fun P' hP' => hp P' (List.mem_cons_of_mem P hP')) ?_ ?_ ?_]
    · congr 1
      simp only [LoopState.mk.injEq, Events.mk.injEq, hlen_cons, List.length_cons]
      repeat' apply And.intro
      all_goals first | rfl | omega | trivial
    · show (s.tail + (12 + P.length)) % data.length + (encSamples Ps).length ≤ data.length
      have hm := Nat.mod_lt (s.tail + (12 + P.length)) hds0
      by_cases hrl : (encSamples Ps).length = 0
      · omega
      · rw [mod_add_small s.tail (12 + P.length) data.length (by omega)]
        omega
    · show s.bufN + 1 + Ps.length ≤ (s.bufs.set s.bufN _).length
      rw [List.length_set]
      omega
    · intro k hk
      show (Ps.getD k []).length
        ≤ ((s.bufs.set s.bufN _).getD (s.bufN + 1 + k) ⟨0, []⟩).cap
      rw [set_getD_ne _ _ _ _ _ (by omega)]
      have := hcap (k + 1) (by simp; omega)
      rw [show s.bufN + (k + 1) = s.bufN + 1 + k from by omega] at this
      simpa using this
    · show s.tail + (12 + P.length) + (encSamples Ps).length ≤ head
      omega

/-! ### Generic shape of one loop iteration -/

/-- One loop iteration either produces a result that does not depend on the
continuation, or passes to the continuation a state whose tail has advanced by
exactly the header `size` field of the record at the loop tail. -/
theorem loopBody_cases (data : List Nat) (head : Nat) (s : LoopState) :
    (∃ v, ∀ rec, loopBody data head s rec = some v) ∨
    (∃ s', s'.tail = s.tail + headerSizeAt data (s.tail % data.length) ∧
      ∀ rec, loopBody data head s rec = rec s') := by
  by_cases h1 : head = s.tail
  · exact Or.inl ⟨.out ⟨.ok s.events, s.tail, s.bufs⟩, fun rec => by
      simp only [loopBody, if_pos h1]⟩
  · by_cases h2 : s.bufN = s.bufs.length
    · exact Or.inl ⟨.out ⟨.ok s.events, s.tail, s.bufs⟩, fun rec => by
        simp only [loopBody, if_neg h1, if_pos h2]⟩
    · cases hre : read_event (s.tail % data.length)
        (headerTypeAt data (s.tail % data.length)) data (s.bufs.getD s.bufN ⟨0, []⟩) with
      | none =>
        exact Or.inl ⟨.panicked, fun rec => by
          simp only [loopBody, if_neg h1, if_neg h2]
          rw [hre]⟩
      | some p =>
        obtain ⟨res, buf1⟩ := p
        rcases res with e | val
        · rcases e with pc | _ | _ | _ | _ | n
          · exact Or.inl ⟨.out ⟨.error (.InvalidPageCount pc), s.tail,
              s.bufs.set s.bufN buf1⟩, fun rec => by
                simp only [loopBody, if_neg h1, if_neg h2]; rw [hre]⟩
          · exact Or.inl ⟨.out ⟨.error .OpenError, s.tail,
              s.bufs.set s.bufN buf1⟩, fun rec => by
                simp only [loopBody, if_neg h1, if_neg h2]; rw [hre]⟩
          · exact Or.inl ⟨.out ⟨.error .MMapError, s.tail,
              s.bufs.set s.bufN buf1⟩, fun rec => by
                simp only [loopBody, if_neg h1, if_neg h2]; rw [hre]⟩
          · exact Or.inl ⟨.out ⟨.error .PerfEventEnableError, s.tail,
              s.bufs.set s.bufN buf1⟩, fun rec => by
                simp only [loopBody, if_neg h1, if_neg h2]; rw [hre]⟩
          · exact Or.inl ⟨.out ⟨.error .NoBuffers, s.tail,
              s.bufs.set s.bufN buf1⟩, fun rec => by
                simp only [loopBody, if_neg h1, if_neg h2]; rw [hre]⟩
          · by_cases hr0 : 0 < s.events.read
            · refine Or.inl ⟨.out ⟨.ok s.events, s.tail, s.bufs.set s.bufN buf1⟩,
                fun rec => ?_⟩
              simp only [loopBody, if_neg h1, if_neg h2]
              rw [hre]
              simp [hr0]
            · refine Or.inl ⟨.out ⟨.error (.MoreSpaceNeeded n), s.tail,
                s.bufs.set s.bufN buf1⟩, fun rec => ?_⟩
              simp only [loopBody, if_neg h1, if_neg h2]
              rw [hre]
              simp [hr0]
        · rcases val with _ | rl
          · refine Or.inr ⟨⟨s.tail + headerSizeAt data (s.tail % data.length),
              s.bufN, s.events, s.bufs.set s.bufN buf1⟩, rfl, fun rec => ?_⟩
            simp only [loopBody, if_neg h1, if_neg h2]
            rw [hre]
          · refine Or.inr ⟨⟨s.tail + headerSizeAt data (s.tail % data.length),
              if 0 < rl.1 then s.bufN + 1 else s.bufN,
              ⟨s.events.read + rl.1, s.events.lost + rl.2⟩,
              s.bufs.set s.bufN buf1⟩, rfl, fun rec => ?_⟩
            simp only [loopBody, if_neg h1, if_neg h2]
            rw [hre]

/-- More fuel never changes a loop run that already finished. -/
theorem loopFuel_mono (data : List Nat) (head : Nat) :
    ∀ (f1 f2 : Nat) (s : LoopState) (r : LoopOut), f1 ≤ f2 →
    loopFuel f1 data head s = some r → loopFuel f2 data head s = some r := by
  intro f1
  induction f1 with
  | zero =>
    intro f2 s r _ h
    exact absurd h (by simp [loopFuel])
  | succ f ih =>
    intro f2 s r hle h
    match f2, hle with
    | f2 + 1, _ =>
      rcases loopBody_cases data head s with ⟨v, hv⟩ | ⟨s', _, hs'⟩
      · rw [loopFuel_succ, hv] at h
        rw [loopFuel_succ, hv]
        exact h
      · rw [loopFuel_succ, hs'] at h
        rw [loopFuel_succ, hs']
        exact ih f2 s' r (by omega) h

theorem blobsLen_take_le (blobs : List (List Nat)) (k : Nat) :
    blobsLen (blobs.take k) ≤ blobsLen blobs := by
  induction blobs generalizing k with
  | nil => simp [blobsLen]
  | cons b rest ih =>
    match k with
    | 0 => simp [blobsLen]
    | k + 1 =>
      rw [List.take_succ_cons, blobsLen, blobsLen]
      have := ih k
      omega

/-! ### The loop on well-formed rings -/

/-- On a well-formed ring, every value the loop returns publishes a tail that
is a record boundary: the entry tail plus the total size of an initial run of
records. -/
theorem loop_wf_boundary (data : List Nat) (head : Nat) :
    ∀ (blobs : List (List Nat)) (fuel : Nat) (s : LoopState) (r : RingOut),
    WF data s.tail blobs → s.tail + blobsLen blobs = head →
    loopFuel fuel data head s = some (.out r) →
    ∃ k, k ≤ blobs.length ∧ r.tailPub = s.tail + blobsLen (blobs.take k) := by
  intro blobs
  induction blobs with
  | nil =>
    intro fuel s r _ hsum h
    simp only [blobsLen] at hsum
    match fuel with
    | 0 => exact absurd h (by simp [loopFuel])
    | fuel + 1 =>
      rw [loop_exit (fuel + 1) data head s (by omega) (by omega)] at h
      simp only [Option.some.injEq, LoopOut.out.injEq] at h
      exact ⟨0, by omega, by rw [← h]; simp [blobsLen]⟩
  | cons b rest ih =>
    intro fuel s r hwf hsum h
    obtain ⟨hb8, hlay, hcontig, hszfield, hwfrest⟩ := hwf
    simp only [blobsLen] at hsum
    match fuel with
    | 0 => exact absurd h (by simp [loopFuel])
    | fuel + 1 =>
      by_cases h1 : head = s.tail
      · rw [loop_exit (fuel + 1) data head s h1 (by omega)] at h
        simp only [Option.some.injEq, LoopOut.out.injEq] at h
        exact ⟨0, by omega, by rw [← h]; simp [blobsLen]⟩
      · by_cases h2 : s.bufN = s.bufs.length
        · rw [loop_exit_full (fuel + 1) data head s h2 h1 (by omega)] at h
          simp only [Option.some.injEq, LoopOut.out.injEq] at h
          exact ⟨0, by omega, by rw [← h]; simp [blobsLen]⟩
        · have hesize : headerSizeAt data (s.tail % data.length) = b.length := by
            unfold headerSizeAt
            have h6 := laidOut_hdr_byte data s.tail b hlay hcontig 6 (by omega) (by omega)
            have h7 := laidOut_hdr_byte data s.tail b hlay hcontig 7 (by omega) (by omega)
            rw [h6, h7]
            simp only [leNat]
            omega
          rw [loopFuel_succ] at h
          simp only [loopBody, if_neg h1, if_neg h2] at h
          cases hre : read_event (s.tail % data.length)
              (headerTypeAt data (s.tail % data.length)) data
              (s.bufs.getD s.bufN ⟨0, []⟩) with
          | none => rw [hre] at h; simp at h
          | some p =>
            obtain ⟨res, buf1⟩ := p
            rw [hre] at h
            rcases res with e | val
            · rcases e with pc | _ | _ | _ | _ | n
              all_goals first
              | · simp only [Option.some.injEq, LoopOut.out.injEq] at h
                  exact ⟨0, by omega, by rw [← h]; simp [blobsLen]⟩
              | · split_ifs at h
                  all_goals simp only [Option.some.injEq, LoopOut.out.injEq] at h
                  all_goals exact ⟨0, by omega, by rw [← h]; simp [blobsLen]⟩
            · have hstep : ∀ (s' : LoopState), s'.tail = s.tail + b.length →
                  loopFuel fuel data head s' = some (.out r) →
                  ∃ k, k ≤ (b :: rest).length ∧
                    r.tailPub = s.tail + blobsLen ((b :: rest).take k) := by
                intro s' ht' h'
                obtain ⟨k, hk, htp⟩ := ih fuel s' r (by rw [ht']; exact hwfrest)
                  (by rw [ht']; omega) h'
                refine ⟨k + 1, by simp; omega, ?_⟩
                rw [htp, ht', List.take_succ_cons, blobsLen]
                omega
              rcases val with _ | rl
              · rw [hesize] at h
                exact hstep _ rfl h
              · rw [hesize] at h
                exact hstep _ rfl h

/-- On a well-formed ring the loop terminates within `#records + 1`
iterations. -/
theorem loop_wf_terminates (data : List Nat) (head : Nat) :
    ∀ (blobs : List (List Nat)) (s : LoopState),
    WF data s.tail blobs → s.tail + blobsLen blobs = head →
    ∃ r, loopFuel (blobs.length + 1) data head s = some r := by
  intro blobs
  induction blobs with
  | nil =>
    intro s _ hsum
    simp only [blobsLen] at hsum
    exact ⟨_, loop_exit 1 data head s (by omega) (by omega)⟩
  | cons b rest ih =>
    intro s hwf hsum
    obtain ⟨hb8, hlay, hcontig, hszfield, hwfrest⟩ := hwf
    simp only [blobsLen] at hsum
    have hesize : headerSizeAt data (s.tail % data.length) = b.length := by
      unfold headerSizeAt
      have h6 := laidOut_hdr_byte data s.tail b hlay hcontig 6 (by omega) (by omega)
      have h7 := laidOut_hdr_byte data s.tail b hlay hcontig 7 (by omega) (by omega)
      rw [h6, h7]
      simp only [leNat]
      omega
    rcases loopBody_cases data head s with ⟨v, hv⟩ | ⟨s', hts', hs'⟩
    · exact ⟨v, by
        rw [show (b :: rest).length + 1 = (rest.length + 1) + 1 from rfl,
          loopFuel_succ, hv]⟩
    · rw [hesize] at hts'
      obtain ⟨r, hr⟩ := ih s' (by rw [hts']; exact hwfrest) (by rw [hts']; omega)
      exact ⟨r, by
        rw [show (b :: rest).length + 1 = (rest.length + 1) + 1 from rfl,
          loopFuel_succ, hs', hr]⟩

theorem length_encSamples_ge (Ps : List (List Nat)) :
    Ps.length ≤ (encSamples Ps).length := by
  induction Ps with
  | nil => simp [encSamples]
  | cons P Ps ih =>
    rw [length_encSamples_cons, List.length_cons]
    omega

theorem blobsLen_ge_length (data : List Nat) :
    ∀ (tail : Nat) (blobs : List (List Nat)), WF data tail blobs →
      blobs.length ≤ blobsLen blobs := by
  intro tail blobs
  induction blobs generalizing tail with
  | nil => intro _; simp [blobsLen]
  | cons b rest ih =>
    intro hwf
    obtain ⟨hb8, _, _, _, hwfrest⟩ := hwf
    have := ih (tail + b.length) hwfrest
    rw [List.length_cons, blobsLen]
    omega

/-! ## The claims -/

/-- C4, counterexample.  The claim asserts the wrap-safe copy is total for
every transfer length `0 ≤ L ≤ data_size`; at `L = 0` the code takes the
two-piece path (`start = end`) and slices `out_buf[..(data_size - start)]` on
a zero-length output region, a panic — modelled as `none`.  The amended claim
(`c4_fill_buf_wrap_safe`) requires `1 ≤ L`. -/
theorem c4_zero_length_panics :
    fill_buf 0 0 [0, 0, 0, 0] = none ∧ (0 : Nat) ≤ ([0, 0, 0, 0] : List Nat).length := by
  exact ⟨by decide, by decide⟩

/-- C4 (amended): for every transfer length `L` with `1 ≤ L ≤ data_size` and
every unbounded ring offset `O`, `fill_buf` performs only in-bounds accesses of
the data area and the `L`-byte output region (it returns `some`), and fills
the output with the ring bytes at addresses `(O + i) mod data_size` for
`i = 0 .. L - 1` — one contiguous copy when `start < end`, otherwise the two
pieces `[start, data_size)` then `[0, end)` in order. -/
theorem c4_fill_buf_wrap_safe (start_off len : Nat) (data : List Nat)
    (h1 : 1 ≤ len) (h2 : len ≤ data.length) :
    fill_buf start_off len data = some (ringBytes start_off len data) :=
  fill_buf_eq start_off len data h1 h2

/-- C4 witness: a wrapping transfer of 4 bytes starting 2 bytes before the end
of an 8-byte data area. -/
theorem c4_witness :
    (1 : Nat) ≤ 4 ∧ (4 : Nat) ≤ ([10, 11, 12, 13, 14, 15, 16, 17] : List Nat).length
    ∧ fill_buf 6 4 [10, 11, 12, 13, 14, 15, 16, 17]
        = some (ringBytes 6 4 [10, 11, 12, 13, 14, 15, 16, 17])
    ∧ ringBytes 6 4 [10, 11, 12, 13, 14, 15, 16, 17] = [16, 17, 10, 11] :=
  ⟨by decide, by decide,
    c4_fill_buf_wrap_safe 6 4 [10, 11, 12, 13, 14, 15, 16, 17] (by decide) (by decide),
    by decide⟩

/-- C10: when `read_events` processes a SAMPLE record, the selected output
buffer is cleared (its length set to 0) before the capacity check; hence
whenever the record's handling ends in `MoreSpaceNeeded`, the returned buffer
is already empty, with its capacity unchanged. -/
theorem c10_cleared_before_capacity_check (es : Nat) (data : List Nat)
    (buf : BytesMut) (n : Nat) (buf' : BytesMut)
    (h : read_event es PERF_RECORD_SAMPLE data buf
        = some (.error (.MoreSpaceNeeded n), buf')) :
    buf' = ⟨buf.cap, []⟩ := by
  unfold read_event at h
  rw [if_pos (Or.inl rfl)] at h
  cases hf : fill_buf (es + perf_event_header_size) 4 data with
  | none => rw [hf] at h; exact absurd h (by simp)
  | some szb =>
    rw [hf] at h
    dsimp only [] at h
    rw [if_pos rfl] at h
    by_cases hc : buf.cap < leNat szb
    · rw [if_pos hc] at h
      simp only [Option.some.injEq, Prod.mk.injEq] at h
      exact h.2.symm
    · rw [if_neg hc] at h
      cases hp : fill_buf ((es + perf_event_header_size + 4) % data.length)
          (leNat szb) data with
      | none => rw [hp] at h; exact absurd h (by simp)
      | some payload => rw [hp] at h; simp at h

/-- C10 witness: a 10-byte sample against a 2-byte-capacity buffer holding one
stale byte; the error carries the cleared buffer. -/
theorem c10_witness :
    read_event 0 PERF_RECORD_SAMPLE (encSample (List.replicate 10 7)) ⟨2, [99]⟩
      = some (.error (.MoreSpaceNeeded 10), ⟨2, []⟩)
    ∧ (⟨2, []⟩ : BytesMut) = ⟨(BytesMut.mk 2 [99]).cap, []⟩ :=
  ⟨by decide,
    c10_cleared_before_capacity_check 0 (encSample (List.replicate 10 7))
      ⟨2, [99]⟩ 10 ⟨2, []⟩ (by decide)⟩

/-- C2: the code violates the claim.  When `mmap` fails after
`perf_event_open` succeeded, `PerfBuffer::open` returns `MMapError` without
closing the acquired file descriptor (the event log contains `openedFd` and no
`closedFd`): the fd leaks.  The enable-failure path, by contrast, does run the
scoped release (disable, munmap, close) as the claim states. -/
theorem c2_mmap_failure_leaks_fd :
    openPerfBuffer 1 4096 2 false true false = (.error .MMapError, [.openedFd])
    ∧ SysEvent.closedFd ∉ [SysEvent.openedFd]
    ∧ openPerfBuffer 1 4096 2 false false true
        = (.error .PerfEventEnableError,
            [.openedFd, .mmapped (4096 * 2 + 4096), .disabled,
              .munmapped (4096 * 2 + 4096), .closedFd]) :=
  ⟨rfl, by decide, rfl⟩

/-- C9: `open` fails with `InvalidPageCount { page_count }` exactly when
`page_count` is not a power of two (including 0); for a power of two the gate
passes and open proceeds to acquire the file descriptor and the mapping of
`size + page_size` bytes (and releases them only if enable fails). -/
theorem c9_power_of_two_gate (cpu_id page_size page_count : Nat)
    (openFails mmapFails enableFails : Bool) :
    ((openPerfBuffer cpu_id page_size page_count openFails mmapFails enableFails).1
        = .error (.InvalidPageCount page_count) ↔ ¬ ∃ k, page_count = 2 ^ k)
    ∧ ((∃ k, page_count = 2 ^ k) →
        (openPerfBuffer cpu_id page_size page_count false false enableFails).2
          = if enableFails then
              [.openedFd, .mmapped (page_size * page_count + page_size), .disabled,
                .munmapped (page_size * page_count + page_size), .closedFd]
            else [.openedFd, .mmapped (page_size * page_count + page_size), .enabled]) := by
  have hiff := is_power_of_two_iff page_count
  by_cases hp : is_power_of_two page_count = true
  · have hex := hiff.mp hp
    constructor
    · constructor
      · intro hres
        exfalso
        rcases openFails <;> rcases mmapFails <;> rcases enableFails <;>
          simp [openPerfBuffer, hp] at hres
      · intro hn
        exact absurd hex hn
    · intro _
      rcases enableFails <;> simp [openPerfBuffer, perfBufferDrop, hp]
  · have hn : ¬ ∃ k, page_count = 2 ^ k := fun hex => hp (hiff.mpr hex)
    have hp' : is_power_of_two page_count = false := by
      cases h : is_power_of_two page_count
      · rfl
      · exact absurd h hp
    constructor
    · simp [openPerfBuffer, hp', hn]
    · intro hex
      exact absurd hex hn

/-- C9 witness: the gate at `page_count = 4` (a power of two, open proceeds)
and `page_count = 3` (rejected). -/
theorem c9_witness :
    (((openPerfBuffer 1 4096 4 false false false).1 = .error (.InvalidPageCount 4))
        ↔ ¬ ∃ k, (4 : Nat) = 2 ^ k)
    ∧ (∃ k, (4 : Nat) = 2 ^ k)
    ∧ (openPerfBuffer 1 4096 4 false false false).2
        = [.openedFd, .mmapped (4096 * 4 + 4096), .enabled]
    ∧ (((openPerfBuffer 1 4096 3 false false false).1 = .error (.InvalidPageCount 3))
        ↔ ¬ ∃ k, (3 : Nat) = 2 ^ k) := by
  refine ⟨(c9_power_of_two_gate 1 4096 4 false false false).1, ⟨2, rfl⟩, ?_,
    (c9_power_of_two_gate 1 4096 3 false false false).1⟩
  have h := (c9_power_of_two_gate 1 4096 4 false false false).2 ⟨2, rfl⟩
  simpa using h

/-- C7: draining a ring holding a single LOST record with count `C` returns
`Events { read = 0, lost = C }` — the count being the 8 bytes at offset
`header_size + 8` from the record start, where `encLost` places it — leaves
every output buffer untouched, and advances `data_tail` past the record by
its header's `size` field (24). -/
theorem c7_lost_record (data : List Nat) (tail : Nat) (id count : Nat)
    (bufs : List BytesMut)
    (hlay : laidOut data tail (encLost id count))
    (hc : tail % data.length + 8 ≤ data.length)
    (hcount : count < 256 ^ 8)
    (hbufs : 0 < bufs.length) :
    read_events data (tail + 24) tail bufs
      = some (.out ⟨.ok ⟨0, count⟩, tail + 24, bufs⟩) := by
  unfold read_events readEventsFuel
  rw [if_neg (by omega)]
  rw [loop_step_lost data (tail + 24) (tail + 24 - tail + bufs.length)
    ⟨tail, 0, ⟨0, 0⟩, bufs⟩ id count hlay hc hcount
    (by show (0 : Nat) < bufs.length; omega) (by show tail + 24 ≠ tail; omega)]
  show loopFuel (tail + 24 - tail + bufs.length) data (tail + 24)
      ⟨tail + 24, 0, ⟨0, 0 + count⟩, bufs⟩
    = some (.out ⟨.ok ⟨0, count⟩, tail + 24, bufs⟩)
  rw [loop_exit (tail + 24 - tail + bufs.length) data (tail + 24)
    ⟨tail + 24, 0, ⟨0, 0 + count⟩, bufs⟩ rfl (by omega)]
  norm_num

/-- C7 witness: a LOST record with count `0xCAFEBABE` in a 32-byte ring and
one zero-capacity buffer. -/
theorem c7_witness :
    read_events (encLost 1 3405691582 ++ List.replicate 8 0) 24 0 [⟨0, []⟩]
      = some (.out ⟨.ok ⟨0, 3405691582⟩, 24, [⟨0, []⟩]⟩) := by
  have h := c7_lost_record (encLost 1 3405691582 ++ List.replicate 8 0) 0 1 3405691582
    [⟨0, []⟩] (by decide) (by decide) (by decide) (by decide)
  simpa using h

/-- C1, counterexample.  A LOST record (count 5) precedes the oversize SAMPLE:
with `events.read == 0` the call fails with `MoreSpaceNeeded` as claimed, but
it publishes `data_tail = 24`, NOT its entry value 0 — the tail advanced past
the LOST record, whose count is nevertheless discarded. -/
theorem c1_counterexample :
    read_events (encLost 1 5 ++ encSample (List.replicate 20 7) ++ List.replicate 72 0)
        56 0 [⟨4, []⟩]
      = some (.out ⟨.error (.MoreSpaceNeeded 20), 24, [⟨4, []⟩]⟩)
    ∧ (24 : Nat) ≠ 0 :=
  ⟨by decide, by decide⟩

/-- C1 (amended): when the oversize SAMPLE (payload length `N` greater than
the selected buffer's capacity) is the FIRST record encountered and
`events.read == 0`, `read_events` publishes `data_tail` unchanged from its
entry value and fails with `MoreSpaceNeeded { size := N }`; only the selected
buffer is mutated (cleared).  (In general the published tail is the loop tail,
advanced past records already consumed this call, and accumulated LOST counts
are discarded even when such an advance occurred.) -/
theorem c1_oversize_first_record (data : List Nat) (head tail : Nat)
    (P : List Nat) (bufs : List BytesMut)
    (hlay : laidOut data tail (encSample P))
    (hc : tail % data.length + 8 ≤ data.length)
    (hP16 : 12 + P.length < 256 ^ 2)
    (hbufs : 0 < bufs.length)
    (hcap : (bufs.getD 0 ⟨0, []⟩).cap < P.length)
    (hhead : head ≠ tail) :
    read_events data head tail bufs
      = some (.out ⟨.error (.MoreSpaceNeeded P.length), tail,
          bufs.set 0 ⟨(bufs.getD 0 ⟨0, []⟩).cap, []⟩⟩) := by
  unfold read_events readEventsFuel
  rw [if_neg (by omega)]
  rw [loop_step_sample_oversize data head (head - tail + bufs.length)
    ⟨tail, 0, ⟨0, 0⟩, bufs⟩ P hlay hc hP16 (by show (0 : Nat) < bufs.length; omega)
    hcap hhead]
  simp

/-- C1 witness: an oversize 20-byte sample as the first (and only) record,
against a 4-byte-capacity buffer; the tail is published unchanged at 0. -/
theorem c1_witness :
    read_events (encSample (List.replicate 20 7) ++ List.replicate 32 0) 32 0 [⟨4, []⟩]
      = some (.out ⟨.error (.MoreSpaceNeeded 20), 0, [⟨4, []⟩]⟩) := by
  have h := c1_oversize_first_record
    (encSample (List.replicate 20 7) ++ List.replicate 32 0) 32 0
    (List.replicate 20 7) [⟨4, []⟩] (by decide) (by decide) (by decide)
    (by decide) (by decide) (by decide)
  simpa using h

/-- C6: on a well-formed ring whose record blobs tile `[tail, head)`, every
value `read_events` returns publishes a `data_tail` equal to the entry tail
plus the summed header sizes of an initial run of records (never stopping
inside a record), and that tail never exceeds the `data_head` snapshot; an
empty ring with at least one buffer yields `Events { read = 0, lost = 0 }`
with `data_tail` unchanged. -/
theorem c6_whole_records (data : List Nat) (head tail : Nat)
    (blobs : List (List Nat)) (bufs : List BytesMut) (r : RingOut)
    (hwf : WF data tail blobs)
    (hsum : tail + blobsLen blobs = head)
    (hr : read_events data head tail bufs = some (.out r)) :
    (∃ k, k ≤ blobs.length ∧ r.tailPub = tail + blobsLen (blobs.take k))
    ∧ r.tailPub ≤ head
    ∧ (head = tail → 0 < bufs.length → r = ⟨.ok ⟨0, 0⟩, tail, bufs⟩) := by
  by_cases hb0 : bufs.length = 0
  · unfold read_events readEventsFuel at hr
    rw [if_pos hb0] at hr
    simp only [Option.some.injEq, LoopOut.out.injEq] at hr
    refine ⟨⟨0, by omega, by rw [← hr]; simp [blobsLen]⟩, ?_, fun _ hb => absurd hb0 (by omega)⟩
    rw [← hr]
    show tail ≤ head
    omega
  · unfold read_events readEventsFuel at hr
    rw [if_neg hb0] at hr
    obtain ⟨k, hk, htp⟩ := loop_wf_boundary data head blobs _
      ⟨tail, 0, ⟨0, 0⟩, bufs⟩ r hwf hsum hr
    have htp' : r.tailPub = tail + blobsLen (blobs.take k) := htp
    refine ⟨⟨k, hk, htp'⟩, ?_, ?_⟩
    · rw [htp']
      have := blobsLen_take_le blobs k
      omega
    · intro heq _
      rw [loop_exit (head - tail + bufs.length + 1) data head
        ⟨tail, 0, ⟨0, 0⟩, bufs⟩ heq (by omega)] at hr
      simp only [Option.some.injEq, LoopOut.out.injEq] at hr
      exact hr.symm

/-- C6 witness: a single LOST record; the published tail 24 is the boundary
after the one record consumed, and does not exceed the head. -/
theorem c6_witness :
    WF (encLost 1 5 ++ List.replicate 8 0) 0 [encLost 1 5]
    ∧ read_events (encLost 1 5 ++ List.replicate 8 0) 24 0 [⟨0, []⟩]
        = some (.out ⟨.ok ⟨0, 5⟩, 24, [⟨0, []⟩]⟩)
    ∧ (∃ k, k ≤ ([encLost 1 5] : List (List Nat)).length ∧
          (RingOut.mk (.ok ⟨0, 5⟩) 24 [⟨0, []⟩]).tailPub
            = 0 + blobsLen ([encLost 1 5].take k))
    ∧ (RingOut.mk (.ok ⟨0, 5⟩) 24 [⟨0, []⟩]).tailPub ≤ 24 := by
  have h := c6_whole_records (encLost 1 5 ++ List.replicate 8 0) 24 0
    [encLost 1 5] [⟨0, []⟩] ⟨.ok ⟨0, 5⟩, 24, [⟨0, []⟩]⟩
    (by decide) (by decide) (by decide)
  exact ⟨by decide, by decide, h.1, h.2.1⟩

/-- C8, counterexample.  The claim asserts termination for ANY byte contents
of the data area.  A LOST record whose header `size` field is 0 never advances
the tail: the drain loop spins forever (no fuel suffices), refuting the claim
at this entry state. -/
theorem c8_counterexample :
    ¬ ReadEventsTerminates (leBytes 4 2 ++ [0, 0] ++ [0, 0] ++ List.replicate 16 0)
        24 0 [⟨0, []⟩] := by
  rintro ⟨fuel, r, h⟩
  have hs : ∀ f, loopFuel f (leBytes 4 2 ++ [0, 0] ++ [0, 0] ++ List.replicate 16 0)
      24 ⟨0, 0, ⟨0, 0⟩, [⟨0, []⟩]⟩ = none := by
    intro f
    induction f with
    | zero => rfl
    | succ f ih => exact ih
  unfold ReadEventsTerminates readEventsFuel at *
  rw [if_neg (by decide)] at h
  rw [hs fuel] at h
  exact Option.noConfusion h

/-- C8 (amended): `read_events` terminates (returns some outcome, performing
only the modelled userspace memory accesses) for every entry state whose ring
is well formed — the records starting at `tail`, each with its header `size`
field equal to its nonzero length, tile `[tail, head)`. -/
theorem c8_wf_terminating (data : List Nat) (head tail : Nat)
    (blobs : List (List Nat)) (bufs : List BytesMut)
    (hwf : WF data tail blobs)
    (hsum : tail + blobsLen blobs = head) :
    ∃ r, read_events data head tail bufs = some r := by
  by_cases hb0 : bufs.length = 0
  · exact ⟨_, by unfold read_events readEventsFuel; rw [if_pos hb0]⟩
  · obtain ⟨r, hr⟩ := loop_wf_terminates data head blobs
      ⟨tail, 0, ⟨0, 0⟩, bufs⟩ hwf hsum
    refine ⟨r, ?_⟩
    unfold read_events readEventsFuel
    rw [if_neg hb0]
    refine loopFuel_mono data head (blobs.length + 1) _ _ r ?_ hr
    have h1 := blobsLen_ge_length data tail blobs hwf
    omega

/-- C8 witness: the well-formed single-LOST-record ring terminates. -/
theorem c8_witness :
    WF (encLost 1 5 ++ List.replicate 8 0) 0 [encLost 1 5]
    ∧ (0 : Nat) + blobsLen [encLost 1 5] = 24
    ∧ ∃ r, read_events (encLost 1 5 ++ List.replicate 8 0) 24 0 [⟨7, []⟩] = some r :=
  ⟨by decide, by decide,
    c8_wf_terminating (encLost 1 5 ++ List.replicate 8 0) 24 0 [encLost 1 5]
      [⟨7, []⟩] (by decide) (by decide)⟩

/-- C3: for a ring holding `k` SAMPLE records whose payloads each fit the
corresponding output buffer, one `read_events` call with at least `k` buffers
returns `Events { read = k, lost = 0 }`; output buffer `i` receives exactly
the payload of the `i`-th record in producer (FIFO) order (capacity
unchanged), and buffers at positions `≥ k` are untouched. -/
theorem c3_fifo_drain (data : List Nat) (tail : Nat) (Ps : List (List Nat))
    (bufs : List BytesMut)
    (hlay : laidOut data tail (encSamples Ps))
    (hnw : tail % data.length + (encSamples Ps).length ≤ data.length)
    (hp : ∀ P ∈ Ps, 1 ≤ P.length ∧ 12 + P.length < 256 ^ 2)
    (hbl : Ps.length ≤ bufs.length)
    (hcap : ∀ k, k < Ps.length → (Ps.getD k []).length ≤ (bufs.getD k ⟨0, []⟩).cap)
    (hbufs : 0 < bufs.length) :
    read_events data (tail + (encSamples Ps).length) tail bufs
      = some (.out ⟨.ok ⟨Ps.length, 0⟩, tail + (encSamples Ps).length,
          writeBufs bufs 0 Ps⟩)
    ∧ (∀ k, k < Ps.length → (writeBufs bufs 0 Ps).getD k ⟨0, []⟩
        = ⟨(bufs.getD k ⟨0, []⟩).cap, Ps.getD k []⟩)
    ∧ (∀ k, Ps.length ≤ k →
        (writeBufs bufs 0 Ps).getD k ⟨0, []⟩ = bufs.getD k ⟨0, []⟩) := by
  refine ⟨?_, ?_, ?_⟩
  · unfold read_events readEventsFuel
    rw [if_neg (by omega)]
    have hfuel : tail + (encSamples Ps).length - tail + bufs.length + 1
        = (tail + (encSamples Ps).length - tail + bufs.length + 1 - Ps.length)
            + Ps.length := by
      omega
    rw [hfuel]
    rw [loop_advance_samples data (tail + (encSamples Ps).length) Ps
      (tail + (encSamples Ps).length - tail + bufs.length + 1 - Ps.length)
      ⟨tail, 0, ⟨0, 0⟩, bufs⟩ hlay hnw hp
      (by show 0 + Ps.length ≤ bufs.length; omega)
      (by intro k hk
          show (Ps.getD k []).length ≤ (bufs.getD (0 + k) ⟨0, []⟩).cap
          rw [Nat.zero_add]
          exact hcap k hk)
      (by show tail + (encSamples Ps).length ≤ tail + (encSamples Ps).length; omega)]
    show loopFuel (tail + (encSamples Ps).length - tail + bufs.length + 1 - Ps.length)
        data (tail + (encSamples Ps).length)
        ⟨tail + (encSamples Ps).length, 0 + Ps.length, ⟨0 + Ps.length, 0⟩,
          writeBufs bufs 0 Ps⟩
      = _
    rw [loop_exit (tail + (encSamples Ps).length - tail + bufs.length + 1 - Ps.length)
      data (tail + (encSamples Ps).length)
      ⟨tail + (encSamples Ps).length, 0 + Ps.length, ⟨0 + Ps.length, 0⟩,
        writeBufs bufs 0 Ps⟩ rfl (by omega)]
    norm_num
  · intro k hk
    have h := writeBufs_getD_mid Ps bufs 0 k hk (by omega)
    rw [Nat.zero_add] at h
    exact h
  · intro k hk
    exact writeBufs_getD_high Ps bufs 0 k ⟨0, []⟩ (by omega)

/-- C3 witness: two samples `[170, 187]` and `[1, 2, 3]` into three buffers of
capacities 2, 4, 8; the third buffer is unused. -/
theorem c3_witness :
    read_events (encSamples [[170, 187], [1, 2, 3]] ++ List.replicate 3 0)
        (0 + (encSamples [[170, 187], [1, 2, 3]]).length) 0 [⟨2, []⟩, ⟨4, []⟩, ⟨8, []⟩]
      = some (.out ⟨.ok ⟨2, 0⟩, 29, [⟨2, [170, 187]⟩, ⟨4, [1, 2, 3]⟩, ⟨8, []⟩]⟩)
    ∧ writeBufs [⟨2, []⟩, ⟨4, []⟩, ⟨8, []⟩] 0 [[170, 187], [1, 2, 3]]
        = [⟨2, [170, 187]⟩, ⟨4, [1, 2, 3]⟩, ⟨8, []⟩] := by
  have h := (c3_fifo_drain (encSamples [[170, 187], [1, 2, 3]] ++ List.replicate 3 0)
    0 [[170, 187], [1, 2, 3]] [⟨2, []⟩, ⟨4, []⟩, ⟨8, []⟩] (by decide) (by decide)
    (by decide) (by decide) (by decide) (by decide)).1
  exact ⟨h.trans (by decide), by decide⟩

/-- C5: when an oversize SAMPLE is encountered after `k ≥ 1` samples have been
delivered in this call, `read_events` stops without advancing the tail past
the oversize record, publishes the tail at that record's start, and returns
the accumulated `Events { read = k, lost = 0 }` successfully — so the oversize
record begins exactly at the new `data_tail` for the next drain.  (The
selected buffer was cleared by `read_event` before the capacity check.) -/
theorem c5_oversize_after_progress (data : List Nat) (head tail : Nat)
    (Ps : List (List Nat)) (Q : List Nat) (bufs : List BytesMut)
    (hlay : laidOut data tail (encSamples Ps ++ encSample Q))
    (hnw : tail % data.length + (encSamples Ps ++ encSample Q).length ≤ data.length)
    (hp : ∀ P ∈ Ps, 1 ≤ P.length ∧ 12 + P.length < 256 ^ 2)
    (hQ16 : 12 + Q.length < 256 ^ 2)
    (hPs1 : 0 < Ps.length)
    (hbl : Ps.length < bufs.length)
    (hcap : ∀ k, k < Ps.length → (Ps.getD k []).length ≤ (bufs.getD k ⟨0, []⟩).cap)
    (hQcap : (bufs.getD Ps.length ⟨0, []⟩).cap < Q.length)
    (hH : tail + (encSamples Ps ++ encSample Q).length ≤ head) :
    read_events data head tail bufs
      = some (.out ⟨.ok ⟨Ps.length, 0⟩, tail + (encSamples Ps).length,
          (writeBufs bufs 0 Ps).set Ps.length
            ⟨(bufs.getD Ps.length ⟨0, []⟩).cap, []⟩⟩) := by
  have hLapp : (encSamples Ps ++ encSample Q).length
      = (encSamples Ps).length + (12 + Q.length) := by
    rw [List.length_append, length_encSample]
  have hlayPs := laidOut_append_left data tail (encSamples Ps) (encSample Q) hlay
  have hlayQ0 := laidOut_append_right data tail (encSamples Ps) (encSample Q) hlay
  unfold read_events readEventsFuel
  rw [if_neg (by omega)]
  have hfuel : head - tail + bufs.length + 1
      = (head - tail + bufs.length + 1 - Ps.length) + Ps.length := by omega
  rw [hfuel]
  rw [loop_advance_samples data head Ps (head - tail + bufs.length + 1 - Ps.length)
    ⟨tail, 0, ⟨0, 0⟩, bufs⟩ hlayPs
    (by show tail % data.length + (encSamples Ps).length ≤ data.length; omega) hp
    (by show 0 + Ps.length ≤ bufs.length; omega)
    (by intro k hk
        show (Ps.getD k []).length ≤ (bufs.getD (0 + k) ⟨0, []⟩).cap
        rw [Nat.zero_add]
        exact hcap k hk)
    (by show tail + (encSamples Ps).length ≤ head; omega)]
  show loopFuel (head - tail + bufs.length + 1 - Ps.length) data head
      ⟨tail + (encSamples Ps).length, 0 + Ps.length, ⟨0 + Ps.length, 0⟩,
        writeBufs bufs 0 Ps⟩
    = _
  have hfe2 : head - tail + bufs.length + 1 - Ps.length
      = (head - tail + bufs.length - Ps.length) + 1 := by omega
  rw [hfe2]
  have hmod : (tail + (encSamples Ps).length) % data.length
      = tail % data.length + (encSamples Ps).length :=
    mod_add_small _ _ _ (by omega)
  rw [loop_step_sample_oversize data head (head - tail + bufs.length - Ps.length)
    ⟨tail + (encSamples Ps).length, 0 + Ps.length, ⟨0 + Ps.length, 0⟩,
      writeBufs bufs 0 Ps⟩ Q hlayQ0
    (by show (tail + (encSamples Ps).length) % data.length + 8 ≤ data.length
        rw [hmod]
        omega)
    hQ16
    (by show 0 + Ps.length < (writeBufs bufs 0 Ps).length
        rw [length_writeBufs]
        omega)
    (by show ((writeBufs bufs 0 Ps).getD (0 + Ps.length) ⟨0, []⟩).cap < Q.length
        rw [writeBufs_getD_high Ps bufs 0 (0 + Ps.length) ⟨0, []⟩ (by omega), Nat.zero_add]
        exact hQcap)
    (by show head ≠ tail + (encSamples Ps).length; omega)]
  rw [if_pos (by show (0 : Nat) < 0 + Ps.length; omega)]
  show some (LoopOut.out ⟨Except.ok ⟨0 + Ps.length, 0⟩, tail + (encSamples Ps).length,
      (writeBufs bufs 0 Ps).set (0 + Ps.length)
        ⟨((writeBufs bufs 0 Ps).getD (0 + Ps.length) ⟨0, []⟩).cap, []⟩⟩)
    = _
  rw [writeBufs_getD_high Ps bufs 0 (0 + Ps.length) ⟨0, []⟩ (by omega)]
  norm_num

/-- C5 witness: one fitting sample `[5, 6]`, then an oversize 20-byte sample
against a 4-byte-capacity second buffer: the call succeeds with
`(read = 1, lost = 0)` and publishes the tail 14, the oversize record's
start. -/
theorem c5_witness :
    read_events (encSamples [[5, 6]] ++ encSample (List.replicate 20 9)
        ++ List.replicate 18 0) 46 0 [⟨2, []⟩, ⟨4, []⟩]
      = some (.out ⟨.ok ⟨1, 0⟩, 14, [⟨2, [5, 6]⟩, ⟨4, []⟩]⟩) := by
  have h := c5_oversize_after_progress
    (encSamples [[5, 6]] ++ encSample (List.replicate 20 9) ++ List.replicate 18 0)
    46 0 [[5, 6]] (List.replicate 20 9) [⟨2, []⟩, ⟨4, []⟩] (by decide) (by decide)
    (by decide) (by decide) (by decide) (by decide) (by decide) (by decide) (by decide)
  exact h.trans (by decide)

end PerfMap
